import Mathlib

/-!
# Caribou core — verification of the reactive property / widget toolkit

Shallow embedding of the caribou GUI toolkit core (repository
`aurantiaco-sucus/caribou`).  The repository contains two generations of the
same core: an older one (`mod.rs`, `basic.rs`, `draw.rs`) and a refactor
(`widget.rs`, `event.rs`, `property.rs`, `widgets.rs`, `batch.rs`).  Where the
two generations agree, one definition below embeds both; where they disagree
(batch appending), both variants are embedded side by side.

`f32` scalars are modelled as `ℚ` (the claims only involve exact small values),
widgets are identified by natural numbers, and `Weak` references are modelled
by an identifier together with an ambient liveness predicate.
-/

namespace Caribou

/-! ## Math primitives (`src/caribou/math.rs`) -/

/-- `ScalarPair` (math.rs): a 2D pair of `f32` scalars, modelled over `ℚ`. -/
structure ScalarPair where
  x : ℚ
  y : ℚ
deriving DecidableEq, Repr

/-- `IntPair` (math.rs): a 2D pair of `i32` values. -/
structure IntPair where
  x : ℤ
  y : ℤ
deriving DecidableEq, Repr

/-- Rust `f32 as i32`: truncation toward zero, `sign q * (|num| / den)`. -/
def ratTrunc (q : ℚ) : ℤ :=
  Int.sign q.num * (q.num.natAbs / q.den)

/-- `ScalarPair::to_int` (math.rs line 14): componentwise `as i32` truncation. -/
def ScalarPair.to_int (p : ScalarPair) : IntPair :=
  ⟨ratTrunc p.x, ratTrunc p.y⟩

/-- `IntPair::to_scalar` (math.rs line 70): componentwise cast to `f32`. -/
def IntPair.to_scalar (p : IntPair) : ScalarPair :=
  ⟨(p.x : ℚ), (p.y : ℚ)⟩

/-- `impl Sub for IntPair` (math.rs line 95). -/
def IntPair.sub (a b : IntPair) : IntPair :=
  ⟨a.x - b.x, a.y - b.y⟩

/-- `Region` (math.rs line 115): axis-aligned rectangle given by origin and size. -/
structure Region where
  origin : ScalarPair
  size : ScalarPair
deriving DecidableEq, Repr

/-- `Region::origin_size` (math.rs line 125). -/
def Region.origin_size (origin size : ScalarPair) : Region :=
  ⟨origin, size⟩

/-- `Region::contains` (math.rs lines 133-136):
`point.x >= origin.x && point.x < origin.x + size.x && point.y >= origin.y && point.y < origin.y + size.y`. -/
def Region.contains (r : Region) (point : ScalarPair) : Bool :=
  decide (point.x ≥ r.origin.x) && decide (point.x < r.origin.x + r.size.x) &&
  decide (point.y ≥ r.origin.y) && decide (point.y < r.origin.y + r.size.y)

/-! ## Reactive property (`property.rs` lines 164-217; identically `mod.rs` lines 300-346)

A `Property<T>` holds a `RefCell` value and an ordered list of listener
closures.  A listener is an arbitrary closure with side effects; it is
modelled as a state transformer over an external state `σ` which also
receives the value currently readable through `Property::get` — during the
whole listener loop of `set` the stored value is unchanged (the
`borrow_mut` happens only after the loop), so that readable value is a
single rational snapshot per call. -/

/-- The property cell: current value plus ordered listener list.  A listener
receives (argument passed by the broadcast, value readable via `get()`,
external state) and returns the new external state. -/
structure Property (α σ : Type) where
  value : α
  listeners : List (α → α → σ → σ)

/-- `Property::set` (property.rs lines 195-200): invoke every listener, in
subscription order, with the incoming value, while the stored value is still
the old one; only after the loop is the stored value replaced. -/
def Property.set {α σ : Type} (p : Property α σ) (v : α) (s : σ) :
    Property α σ × σ :=
  ({ p with value := v },
   p.listeners.foldl (fun acc f => f v p.value acc) s)

/-- `Property::get` (property.rs line 179): a read view of the current value. -/
def Property.get {α σ : Type} (p : Property α σ) : α := p.value

/-- An instrumented listener that only logs its invocation: it records its own
index, the argument it received, and the stored value readable via `get()`
at call time. -/
def logListener {α : Type} (i : ℕ) : α → α → List (ℕ × α × α) → List (ℕ × α × α) :=
  fun arg cur log => log ++ [(i, arg, cur)]

theorem foldl_logListener {α : Type} (v old : α) (is : List ℕ)
    (log : List (ℕ × α × α)) :
    (is.map (logListener (α := α))).foldl (fun acc f => f v old acc) log =
      log ++ is.map (fun i => (i, v, old)) := by
  induction is generalizing log with
  | nil => simp
  | cons i is ih =>
      simp only [List.map_cons, List.foldl_cons, ih, logListener]
      simp

/-! ## Event result combinators (`event.rs` lines 99-115; identically `mod.rs` lines 468-484)

Broadcasting a boolean zero-argument event returns the `Vec<bool>` of the
listeners' results, in subscription order; that list is all the coordinator
inspects, so listener result lists are what the focus model carries. -/

/-- `ZeroArgEvent::<bool>::any_false`: some listener returned `false`. -/
def anyFalse (rs : List Bool) : Bool :=
  rs.any (fun b => !b)

/-- `ZeroArgEvent::<bool>::none_false`: no listener returned `false`. -/
def noneFalse (rs : List Bool) : Bool :=
  !(rs.any (fun b => !b))

/-! ## Focus / tab-order coordinator (`mod.rs` lines 62-119)

Widgets are identified by naturals.  A `Weak<Component>` is an identifier
whose upgrade succeeds exactly when the ambient liveness predicate holds;
the default (dangling) weak reference in the focused slot is `none`.
The booleans returned by each widget's `on_lose_focus` / `on_gain_focus`
listeners are an input of the model (fixed per widget for the call). -/

/-- Ambient environment of a `circulate_focus` call: which widgets are alive
and what each widget's focus-event listeners answer. -/
structure FocusEnv where
  alive : ℕ → Bool
  loseResults : ℕ → List Bool
  gainResults : ℕ → List Bool

/-- The coordinator state: the two weak tab order lists and the weak focused
slot (`Instance` fields, `mod.rs` lines 130-137). -/
structure FocusState where
  manual : List ℕ
  auto : List ℕ
  focused : Option ℕ
deriving DecidableEq, Repr

/-- Result of a `circulate_focus` call: the mutated coordinator state, the
returned boolean, and the widgets whose `on_gain_focus` event got broadcast,
in broadcast order. -/
structure FocusOutcome where
  state : FocusState
  result : Bool
  gainBroadcasts : List ℕ
deriving DecidableEq, Repr

/-- The circular walk of `circulate_focus` (`mod.rs` lines 102-117): starting
at `idx`, ask each candidate via `on_gain_focus.none_false()`; the first
accepted candidate wins; advancing wraps with `% tab.length` and stops upon
returning to `initialNext`.  The fuel argument is `tab.length` at the call
site, which the loop never exhausts.  Returns the accepted widget (if any)
and all widgets that received a gain-focus broadcast, in order. -/
def focusLoop (env : FocusEnv) (tab : List ℕ) (initialNext : ℕ) :
    ℕ → ℕ → Option ℕ × List ℕ
  | _, 0 => (none, [])
  | idx, fuel + 1 =>
      let next := tab.getD idx 0
      if noneFalse (env.gainResults next) then
        (some next, [next])
      else
        let idx2 := (idx + 1) % tab.length
        if idx2 = initialNext then (none, [next])
        else
          let r := focusLoop env tab initialNext idx2 fuel
          (r.1, next :: r.2)

/-- The body of `circulate_focus` after the active tab order `tab` has been
chosen (`mod.rs` lines 85-117).  `manual` and `auto` are the already purged
lists stored back into the coordinator; `focused` is the current focused
slot. -/
def circulateOver (env : FocusEnv) (manual auto : List ℕ)
    (focused : Option ℕ) (tab : List ℕ) : FocusOutcome :=
  if tab = [] then
    ⟨⟨manual, auto, none⟩, true, []⟩
  else
    match focused.bind (fun c => if env.alive c then some c else none) with
    | some cur =>
        if anyFalse (env.loseResults cur) then
          ⟨⟨manual, auto, focused⟩, false, []⟩
        else
          let initialNext :=
            match tab.findIdx? (fun x => x == cur) with
            | some i => (i + 1) % tab.length
            | none => 0
          let r := focusLoop env tab initialNext initialNext tab.length
          match r.1 with
          | some w => ⟨⟨manual, auto, some w⟩, true, r.2⟩
          | none => ⟨⟨manual, auto, focused⟩, false, r.2⟩
    | none =>
        let r := focusLoop env tab 0 0 tab.length
        match r.1 with
        | some w => ⟨⟨manual, auto, some w⟩, true, r.2⟩
        | none => ⟨⟨manual, auto, focused⟩, false, r.2⟩

/-- `Caribou::circulate_focus` (`mod.rs` lines 68-119): purge dead entries
from both tab order lists (the `if !is_empty` guards around `retain` do not
change the result, retaining on an empty list being a no-op), choose the
manual list if nonempty else the automatic list, and run the traversal. -/
def circulate_focus (env : FocusEnv) (st : FocusState) : FocusOutcome :=
  let manual := st.manual.filter env.alive
  let auto := st.auto.filter env.alive
  circulateOver env manual auto st.focused
    (if manual ≠ [] then manual else auto)

/-! ## Layout hover tracking (`widgets.rs` lines 40-97; `basic.rs` lines 43-104)

A layout child is identified by its widget id and carries its `position` and
`size` properties.  The hover set `cur_hov` is a list of widget references:
weak in `widgets.rs` (purged with `clean()` before each traversal), strong in
`basic.rs`.  The model carries weak semantics through the `alive` predicate;
`basic.rs` is the instance `alive = fun _ => true`.  Children are held by
strong references (`children` property), hence alive during the call. -/

/-- A child widget as seen by the layout handlers. -/
structure ChildInfo where
  id : ℕ
  pos : ScalarPair
  size : ScalarPair
deriving DecidableEq, Repr

/-- One broadcast performed by the layout mouse handlers on a child. -/
inductive HoverEvent where
  | enter (id : ℕ)
  | move (id : ℕ) (payload : IntPair)
  | leave (id : ℕ)
deriving DecidableEq, Repr

/-- The hit test of the mouse-move handler (`widgets.rs` line 50):
`Region::origin_size(child_pos, child_size).contains(pos.to_scalar())`. -/
def childContains (c : ChildInfo) (pos : IntPair) : Bool :=
  (Region.origin_size c.pos c.size).contains pos.to_scalar

/-- The `for child in children` loop of the mouse-move handler
(`widgets.rs` lines 47-59): for each contained child broadcast enter if it was
not in the (purged) hover set, else move with the payload translated by the
truncated child position; collect the new hover set in children order.
Returns (broadcasts in order, new hover set). -/
def moveLoop (hov1 : List ℕ) (pos : IntPair) :
    List ChildInfo → List HoverEvent × List ℕ
  | [] => ([], [])
  | c :: rest =>
      if childContains c pos then
        let ev := if !(hov1.contains c.id) then HoverEvent.enter c.id
                  else HoverEvent.move c.id (pos.sub c.pos.to_int)
        let r := moveLoop hov1 pos rest
        (ev :: r.1, c.id :: r.2)
      else
        moveLoop hov1 pos rest

/-- Result of one layout mouse-move dispatch. -/
structure MoveOutcome where
  events : List HoverEvent
  newHov : List ℕ
  newPos : IntPair
deriving DecidableEq, Repr

/-- The layout `on_mouse_move` handler (`widgets.rs` lines 40-66): purge dead
hover entries, record the position, run the children loop, then broadcast
leave to every still-hovered entry absent from the new hover set, and replace
the hover set. -/
def layoutMouseMove (alive : ℕ → Bool) (children : List ChildInfo)
    (hov : List ℕ) (pos : IntPair) : MoveOutcome :=
  let hov1 := hov.filter alive
  let r := moveLoop hov1 pos children
  { events :=
      r.1 ++ (hov1.filter (fun h => !(r.2.contains h))).map HoverEvent.leave,
    newHov := r.2,
    newPos := pos }

/-- The hover set of a freshly created layout (`widgets.rs` lines 92-95,
`basic.rs` line 100): `cur_hov: RefCell::new(vec![])`. -/
def initialLayoutHov : List ℕ := []

/-- The layout `on_primary_down` handler (`widgets.rs` lines 76-83): purge
dead hover entries, then broadcast `on_primary_down` to every remaining entry
in hover-set order, with no payload.  (`basic.rs` lines 78-84 is the same
without the purge, its hover set holding strong references.)  Returns
(broadcast targets in order, hover set afterwards). -/
def layoutPrimaryDown (alive : ℕ → Bool) (hov : List ℕ) :
    List ℕ × List ℕ :=
  let hov1 := hov.filter alive
  (hov1, hov1)

/-! ## Button state machine (`widgets.rs` lines 104-218; `basic.rs` lines 111-229) -/

/-- `ButtonState` (widgets.rs lines 106-110). -/
inductive ButtonState where
  | Normal
  | Hover
  | Pressed
deriving DecidableEq, Repr

/-- The externally visible effects a button handler can perform. -/
inductive ButtonEffect where
  | redraw
  | setFocusSelf
  | action
deriving DecidableEq, Repr

/-- The per-button private state stashed in the widget's `data` payload. -/
structure ButtonData where
  state : ButtonState
  focused : Bool
deriving DecidableEq, Repr

/-- Button `on_primary_down` (widgets.rs lines 138-143): state to `Pressed`,
request redraw, set self as the process-wide focus target. -/
def buttonPrimaryDown (d : ButtonData) : ButtonData × List ButtonEffect :=
  ({ d with state := ButtonState.Pressed },
   [ButtonEffect.redraw, ButtonEffect.setFocusSelf])

/-- Button `on_primary_up` (widgets.rs lines 144-151): state to `Hover`, then
broadcast `action` only if the enabled flag reads `true`, then request
redraw. -/
def buttonPrimaryUp (enabled : Bool) (d : ButtonData) :
    ButtonData × List ButtonEffect :=
  ({ d with state := ButtonState.Hover },
   (if enabled then [ButtonEffect.action] else []) ++ [ButtonEffect.redraw])

/-- Modelled from the spec: the `Key` enum lives in `src/caribou/input.rs`,
which is absent from the sources.  Its variants referenced by the present
sources are `Return`, `Space`, `NumpadEnter` (button key handlers) and `Tab`
(the key dispatcher); a catch-all constructor stands for every other key of
the keyboard-event stream the spec describes. -/
inductive Key where
  | Return
  | Space
  | NumpadEnter
  | Tab
  | otherKey (code : ℕ)
deriving DecidableEq, Repr

/-- Button `on_key_up` (widgets.rs lines 200-210): on `Return`, `Space` or
`NumpadEnter`, set state to `Normal`, broadcast `action` (with no check of
the enabled flag — the handler does not read it, hence the ignored
argument), and request redraw; on any other key do nothing. -/
def buttonKeyUp (_enabled : Bool) (k : Key) (d : ButtonData) :
    ButtonData × List ButtonEffect :=
  match k with
  | Key.Return | Key.Space | Key.NumpadEnter =>
      ({ d with state := ButtonState.Normal },
       [ButtonEffect.action, ButtonEffect.redraw])
  | _ => (d, [])

/-! ## Draw batches (`batch.rs` lines 11-45; `draw.rs` lines 6-62)

A `Batch` is a handle (`Rc<RefCell<Vec<BatchOp>>>` in draw.rs,
`Arc<RwLock<Vec<BatchOp>>>` in batch.rs) to a shared growable sequence of
operations; cloning a batch copies the handle, not the sequence.  The model
is a store of cells indexed by naturals; a batch value is a cell index, and
a clone is the same index.  The batch code never inspects individual
operations, so the operation type is a parameter. -/

/-- The heap of batch cells. -/
structure BatchStore (Op : Type) where
  cells : List (List Op)
deriving DecidableEq, Repr

/-- `Batch::new`: allocate a fresh empty cell, returning the new store and
the new batch's index. -/
def BatchStore.newBatch {Op : Type} (s : BatchStore Op) :
    BatchStore Op × ℕ :=
  (⟨s.cells ++ [[]]⟩, s.cells.length)

/-- Read a batch's operation sequence (draw.rs `iter`, batch.rs `data`). -/
def BatchStore.getOps {Op : Type} (s : BatchStore Op) (b : ℕ) : List Op :=
  s.cells.getD b []

/-- Overwrite one cell of the store. -/
def BatchStore.setCell {Op : Type} (s : BatchStore Op) (b : ℕ)
    (ops : List Op) : BatchStore Op :=
  ⟨s.cells.set b ops⟩

/-- `Batch::add_op` (batch.rs line 20) / `Batch::add` (draw.rs line 19):
push one operation onto the batch's sequence. -/
def BatchStore.addOp {Op : Type} (s : BatchStore Op) (b : ℕ) (op : Op) :
    BatchStore Op :=
  s.setCell b (s.getOps b ++ [op])

/-- `Batch::append` (batch.rs lines 24-26):
`self.data.write().extend(other.data.read().clone())` — extend `self` with a
copy of `other`'s operations, leaving `other` unchanged.  (With `self` and
`other` the same cell the Rust code would deadlock on its `RwLock`; all uses
below keep them distinct.) -/
def BatchStore.appendClone {Op : Type} (s : BatchStore Op)
    (self other : ℕ) : BatchStore Op :=
  s.setCell self (s.getOps self ++ s.getOps other)

/-- `Batch::add_batch` (draw.rs lines 23-25):
`self.data.borrow_mut().append(&mut batch.data.borrow_mut())` —
`Vec::append` moves all of `other`'s operations into `self`, leaving `other`
empty.  (With `self` and `other` the same cell the Rust code would panic on
its `RefCell`; all uses below keep them distinct.) -/
def BatchStore.addBatchDrain {Op : Type} (s : BatchStore Op)
    (self other : ℕ) : BatchStore Op :=
  (s.setCell self (s.getOps self ++ s.getOps other)).setCell other []

/-- `BatchConsolidation::consolidate for Vec<Batch>` in the batch.rs
generation (batch.rs lines 37-45): fold the input batches into a fresh batch
with `append`. -/
def consolidateRs {Op : Type} (s : BatchStore Op) (batches : List ℕ) :
    BatchStore Op × ℕ :=
  let r := s.newBatch
  (batches.foldl (fun acc entry => acc.appendClone r.2 entry) r.1, r.2)

/-- `BatchConsolidation::consolidate for Vec<Batch>` in the draw.rs
generation (draw.rs lines 54-62): fold the input batches into a fresh batch
with `add_batch`. -/
def consolidateDraw {Op : Type} (s : BatchStore Op) (batches : List ℕ) :
    BatchStore Op × ℕ :=
  let r := s.newBatch
  (batches.foldl (fun acc entry => acc.addBatchDrain r.2 entry) r.1, r.2)

/-! ## Occurrence counting -/

/-- Number of occurrences of `e` in `l` (used to state "exactly once"). -/
def countL {α : Type} [DecidableEq α] (e : α) (l : List α) : ℕ :=
  (l.filter (fun x => x = e)).length

theorem countL_nil {α : Type} [DecidableEq α] (e : α) :
    countL e [] = 0 := rfl

theorem countL_cons {α : Type} [DecidableEq α] (e a : α) (l : List α) :
    countL e (a :: l) = (if a = e then 1 else 0) + countL e l := by
  by_cases h : a = e <;> simp [countL, h, Nat.add_comm]

theorem countL_append {α : Type} [DecidableEq α] (e : α) (l₁ l₂ : List α) :
    countL e (l₁ ++ l₂) = countL e l₁ + countL e l₂ := by
  simp [countL]

theorem countL_eq_zero_of_not_mem {α : Type} [DecidableEq α] {w : α}
    {l : List α} (h : w ∉ l) : countL w l = 0 := by
  induction l with
  | nil => rfl
  | cons a l ih =>
      simp only [List.mem_cons, not_or] at h
      rw [countL_cons, if_neg (fun e => h.1 e.symm), ih h.2]

theorem countL_map_eq_length_filter {α β : Type} [DecidableEq β]
    (f : α → β) (e : β) (l : List α) :
    countL e (l.map f) = (l.filter (fun c => f c = e)).length := by
  induction l with
  | nil => rfl
  | cons a l ih =>
      by_cases h : f a = e <;> simp [countL_cons, h, ih, Nat.add_comm]

theorem countL_eq_one_of_nodup {α : Type} [DecidableEq α] {w : α}
    {l : List α} (hnd : l.Nodup) (hm : w ∈ l) : countL w l = 1 := by
  induction l with
  | nil => cases hm
  | cons a l ih =>
      simp only [List.nodup_cons] at hnd
      rcases List.mem_cons.mp hm with h | h
      · subst h
        rw [countL_cons, if_pos rfl, countL_eq_zero_of_not_mem hnd.1]
      · have : a ≠ w := fun e => hnd.1 (e ▸ h)
        rw [countL_cons, if_neg this, ih hnd.2 h]

/-! ## Claims -/

/-- C1. `Property::set(v)` invokes each currently subscribed listener, in
subscription order, with the argument `v`; during every listener invocation
the value readable through `get()` is still the previous stored value (the
store happens only after the listener loop); and afterwards the stored value
is `v`.  Stated over `n` instrumented listeners, each logging (own index,
received argument, value readable via `get()`) into the external state. -/
theorem property_set_then_notify {α : Type} (n : ℕ) (old v : α)
    (s₀ : List (ℕ × α × α)) :
    (Property.set ⟨old, (List.range n).map logListener⟩ v s₀).1.value = v ∧
    (Property.set ⟨old, (List.range n).map logListener⟩ v s₀).2 =
      s₀ ++ (List.range n).map (fun i => (i, v, old)) :=
  ⟨rfl, foldl_logListener v old (List.range n) s₀⟩

/-- C5. `Region::contains` is half-open on both axes — it holds exactly when
`px ≤ x < px + w` and `py ≤ y < py + h` — and, through the layout hit test,
a child at position (10,10) with size (20,20) contains (10,10) and (29,29)
but not (30,30) or (9,9). -/
theorem region_contains_half_open :
    (∀ px py w h x y : ℚ,
      Region.contains ⟨⟨px, py⟩, ⟨w, h⟩⟩ ⟨x, y⟩ = true ↔
        (px ≤ x ∧ x < px + w ∧ py ≤ y ∧ y < py + h)) ∧
    childContains ⟨0, ⟨10, 10⟩, ⟨20, 20⟩⟩ ⟨10, 10⟩ = true ∧
    childContains ⟨0, ⟨10, 10⟩, ⟨20, 20⟩⟩ ⟨29, 29⟩ = true ∧
    childContains ⟨0, ⟨10, 10⟩, ⟨20, 20⟩⟩ ⟨30, 30⟩ = false ∧
    childContains ⟨0, ⟨10, 10⟩, ⟨20, 20⟩⟩ ⟨9, 9⟩ = false := by
  refine ⟨fun px py w h x y => ?_, ?_, ?_, ?_, ?_⟩
  · simp [Region.contains, and_assoc]
  all_goals
    norm_num [childContains, Region.contains, Region.origin_size,
      IntPair.to_scalar]

/-- C6. A primary-down followed by a primary-up broadcasts `action` exactly
once when the enabled flag reads `true` at primary-up time and zero times
when it reads `false`; in both cases the primary-up leaves the button state
at `Hover`. -/
theorem button_click_action_gated (enabled : Bool) (d : ButtonData) :
    countL ButtonEffect.action
        ((buttonPrimaryDown d).2 ++
          (buttonPrimaryUp enabled (buttonPrimaryDown d).1).2) =
      (if enabled then 1 else 0) ∧
    (buttonPrimaryUp enabled (buttonPrimaryDown d).1).1.state =
      ButtonState.Hover := by
  cases enabled <;>
    simp [buttonPrimaryDown, buttonPrimaryUp, countL_append, countL_cons, countL]

/-- C7. A key-up with `Return`, `Space` or `NumpadEnter` sets the button
state to `Normal` and broadcasts `action` exactly once, for either value of
the enabled flag (the handler never reads it); a key-up with any other key
changes nothing and broadcasts nothing. -/
theorem button_key_up_unconditional (enabled : Bool) (d : ButtonData)
    (k : Key) :
    ((k = Key.Return ∨ k = Key.Space ∨ k = Key.NumpadEnter) →
      (buttonKeyUp enabled k d).1.state = ButtonState.Normal ∧
      countL ButtonEffect.action (buttonKeyUp enabled k d).2 = 1) ∧
    (k ≠ Key.Return → k ≠ Key.Space → k ≠ Key.NumpadEnter →
      buttonKeyUp enabled k d = (d, [])) := by
  constructor
  · rintro (rfl | rfl | rfl) <;> exact ⟨rfl, rfl⟩
  · intro h1 h2 h3
    cases k with
    | Return => exact absurd rfl h1
    | Space => exact absurd rfl h2
    | NumpadEnter => exact absurd rfl h3
    | Tab => rfl
    | otherKey code => rfl

theorem button_key_up_unconditional_witness :
    ((buttonKeyUp false Key.Return ⟨ButtonState.Hover, false⟩).1.state =
        ButtonState.Normal ∧
      countL ButtonEffect.action
        (buttonKeyUp false Key.Return ⟨ButtonState.Hover, false⟩).2 = 1) ∧
    buttonKeyUp true Key.Tab ⟨ButtonState.Pressed, false⟩ =
      (⟨ButtonState.Pressed, false⟩, []) :=
  ⟨(button_key_up_unconditional false ⟨ButtonState.Hover, false⟩ Key.Return).1
      (Or.inl rfl),
   (button_key_up_unconditional true ⟨ButtonState.Pressed, false⟩ Key.Tab).2
      (by decide) (by decide) (by decide)⟩

/-- C8. A primary-down on a layout is forwarded exactly to the (live)
widgets currently in its hover set, each exactly once, in hover-set order
and with no payload; on a freshly created layout, whose hover set is empty,
it reaches zero children. -/
theorem layout_primary_down_routing (alive : ℕ → Bool) (hov : List ℕ)
    (hnd : hov.Nodup) :
    (layoutPrimaryDown alive hov).1 = hov.filter alive ∧
    (∀ w, countL w (layoutPrimaryDown alive hov).1 =
      if alive w = true ∧ w ∈ hov then 1 else 0) ∧
    layoutPrimaryDown alive initialLayoutHov = ([], []) := by
  refine ⟨rfl, fun w => ?_, rfl⟩
  show countL w (hov.filter alive) = _
  by_cases hm : w ∈ hov
  · by_cases hal : alive w
    · rw [countL_eq_one_of_nodup (hnd.filter alive)
        (List.mem_filter.mpr ⟨hm, hal⟩), if_pos ⟨hal, hm⟩]
    · rw [countL_eq_zero_of_not_mem
        (fun hf => hal (List.mem_filter.mp hf).2)]
      simp [hal]
  · rw [countL_eq_zero_of_not_mem
      (fun hf => hm (List.mem_filter.mp hf).1)]
    simp [hm]

theorem layout_primary_down_routing_witness :
    layoutPrimaryDown (fun _ => true) initialLayoutHov = ([], []) :=
  (layout_primary_down_routing (fun _ => true) [1, 2] (by decide)).2.2

theorem circulate_focus_eq (env : FocusEnv) (st : FocusState) :
    circulate_focus env st =
      circulateOver env (st.manual.filter env.alive)
        (st.auto.filter env.alive) st.focused
        (if st.manual.filter env.alive ≠ [] then st.manual.filter env.alive
         else st.auto.filter env.alive) := rfl

/-- C2 counterexample.  With both tab order lists empty, the focused slot
holding a live widget (id 0) whose sole `on_lose_focus` listener answers
`false`, `circulate_focus` hits the empty-active-order early exit before any
lose-focus broadcast: it returns `true` (not `false`) and resets the focused
slot to the default instead of keeping widget 0 focused. -/
theorem focus_veto_counterexample :
    (⟨fun _ => true, fun _ => [false], fun _ => []⟩ : FocusEnv).alive 0 = true ∧
    anyFalse
      ((⟨fun _ => true, fun _ => [false], fun _ => []⟩ : FocusEnv).loseResults 0) =
      true ∧
    circulate_focus ⟨fun _ => true, fun _ => [false], fun _ => []⟩
        ⟨[], [], some 0⟩ =
      ⟨⟨[], [], none⟩, true, []⟩ :=
  ⟨rfl, rfl, by decide⟩

/-- C2 (amended): provided the active tab order chosen after purging is
nonempty, whenever the focused slot holds a live widget `w` and some listener
on `w`'s `on_lose_focus` event returns `false`, `circulate_focus` returns
`false`, broadcasts no `on_gain_focus` event, and leaves the focused slot on
`w`. -/
theorem focus_veto (env : FocusEnv) (st : FocusState) (w : ℕ)
    (hfoc : st.focused = some w)
    (halive : env.alive w = true)
    (hveto : anyFalse (env.loseResults w) = true)
    (htab : (if st.manual.filter env.alive ≠ [] then st.manual.filter env.alive
             else st.auto.filter env.alive) ≠ []) :
    (circulate_focus env st).result = false ∧
    (circulate_focus env st).gainBroadcasts = [] ∧
    (circulate_focus env st).state.focused = some w := by
  have heq : circulate_focus env st =
      ⟨⟨st.manual.filter env.alive, st.auto.filter env.alive, st.focused⟩,
        false, []⟩ := by
    rw [circulate_focus_eq, circulateOver, if_neg htab, hfoc]
    simp [halive, hveto]
  rw [heq]
  exact ⟨rfl, rfl, hfoc⟩

theorem focus_veto_witness :
    (circulate_focus ⟨fun _ => true, fun _ => [false], fun _ => [true]⟩
        ⟨[1], [], some 1⟩).result = false ∧
    (circulate_focus ⟨fun _ => true, fun _ => [false], fun _ => [true]⟩
        ⟨[1], [], some 1⟩).gainBroadcasts = [] ∧
    (circulate_focus ⟨fun _ => true, fun _ => [false], fun _ => [true]⟩
        ⟨[1], [], some 1⟩).state.focused = some 1 :=
  focus_veto _ _ 1 rfl rfl rfl (by decide)

/-- C3. `circulate_focus` works on the purged lists: it uses the purged
manual list as the active order whenever that list is nonempty and the
purged automatic list otherwise; and whenever the chosen active order is
empty (both purged lists empty), it resets the focused slot to the default
empty reference and returns `true`, broadcasting nothing. -/
theorem focus_tab_order_fallback (env : FocusEnv) (st : FocusState) :
    (st.manual.filter env.alive ≠ [] →
      circulate_focus env st =
        circulateOver env (st.manual.filter env.alive)
          (st.auto.filter env.alive) st.focused
          (st.manual.filter env.alive)) ∧
    (st.manual.filter env.alive = [] →
      circulate_focus env st =
        circulateOver env (st.manual.filter env.alive)
          (st.auto.filter env.alive) st.focused
          (st.auto.filter env.alive)) ∧
    (st.manual.filter env.alive = [] → st.auto.filter env.alive = [] →
      circulate_focus env st =
        ⟨⟨st.manual.filter env.alive, st.auto.filter env.alive, none⟩,
          true, []⟩) := by
  refine ⟨fun h => ?_, fun h => ?_, fun h1 h2 => ?_⟩
  · rw [circulate_focus_eq, if_pos h]
  · rw [circulate_focus_eq, if_neg (fun hn => hn h)]
  · rw [circulate_focus_eq, if_neg (fun hn => hn h1), h1, h2]
    rfl

theorem focus_tab_order_fallback_witness :
    circulate_focus ⟨fun _ => true, fun _ => [true], fun _ => [true]⟩
        ⟨[], [7], some 9⟩ =
      circulateOver ⟨fun _ => true, fun _ => [true], fun _ => [true]⟩ [] [7]
        (some 9) [7] ∧
    circulate_focus ⟨fun _ => true, fun _ => [], fun _ => []⟩ ⟨[], [], none⟩ =
      ⟨⟨[], [], none⟩, true, []⟩ :=
  ⟨(focus_tab_order_fallback _ _).2.1 rfl,
   (focus_tab_order_fallback _ _).2.2 rfl rfl⟩

theorem getOps_setCell_same {Op : Type} (s : BatchStore Op) (b : ℕ)
    (ops : List Op) (h : b < s.cells.length) :
    (s.setCell b ops).getOps b = ops := by
  simp [BatchStore.setCell, BatchStore.getOps, List.getD,
    List.getElem?_set_self, h]

theorem getOps_setCell_other {Op : Type} (s : BatchStore Op) (b j : ℕ)
    (ops : List Op) (h : b ≠ j) :
    (s.setCell b ops).getOps j = s.getOps j := by
  simp [BatchStore.setCell, BatchStore.getOps, List.getD,
    List.getElem?_set_ne, h]

theorem length_setCell {Op : Type} (s : BatchStore Op) (b : ℕ)
    (ops : List Op) : (s.setCell b ops).cells.length = s.cells.length := by
  simp [BatchStore.setCell]

theorem consolidateRs_fold_spec {Op : Type} (inputs : List ℕ)
    (t : BatchStore Op) (b : ℕ) (hb : b < t.cells.length)
    (hne : ∀ i ∈ inputs, i ≠ b) :
    (inputs.foldl (fun acc e => acc.appendClone b e) t).cells.length =
      t.cells.length ∧
    (inputs.foldl (fun acc e => acc.appendClone b e) t).getOps b =
      t.getOps b ++ (inputs.map t.getOps).flatten ∧
    (∀ j, j ≠ b →
      (inputs.foldl (fun acc e => acc.appendClone b e) t).getOps j =
        t.getOps j) := by
  induction inputs generalizing t with
  | nil => simp
  | cons e rest ih =>
      have hne' : ∀ i ∈ rest, i ≠ b := fun i hi => hne i (List.mem_cons_of_mem e hi)
      have hlen : (t.appendClone b e).cells.length = t.cells.length :=
        length_setCell _ _ _
      have hib : b < (t.appendClone b e).cells.length := by rw [hlen]; exact hb
      have hgb : (t.appendClone b e).getOps b = t.getOps b ++ t.getOps e :=
        getOps_setCell_same _ _ _ hb
      have hgo : ∀ j, j ≠ b → (t.appendClone b e).getOps j = t.getOps j :=
        fun j hj => getOps_setCell_other _ _ _ _ (Ne.symm hj)
      obtain ⟨ih1, ih2, ih3⟩ := ih (t.appendClone b e) hib hne'
      refine ⟨by simpa [hlen] using ih1, ?_, ?_⟩
      · rw [List.foldl_cons, ih2, hgb]
        have hmap : rest.map (t.appendClone b e).getOps = rest.map t.getOps :=
          List.map_congr_left (fun i hi => hgo i (hne' i hi))
        rw [hmap, List.map_cons, List.flatten, List.append_assoc]
      · intro j hj
        rw [List.foldl_cons, ih3 j hj, hgo j hj]

theorem consolidateDraw_fold_spec {Op : Type} (inputs : List ℕ)
    (t : BatchStore Op) (b : ℕ) (hb : b < t.cells.length)
    (hval : ∀ i ∈ inputs, i < t.cells.length)
    (hne : ∀ i ∈ inputs, i ≠ b)
    (hnd : inputs.Nodup) :
    (inputs.foldl (fun acc e => acc.addBatchDrain b e) t).cells.length =
      t.cells.length ∧
    (inputs.foldl (fun acc e => acc.addBatchDrain b e) t).getOps b =
      t.getOps b ++ (inputs.map t.getOps).flatten ∧
    (∀ i ∈ inputs,
      (inputs.foldl (fun acc e => acc.addBatchDrain b e) t).getOps i = []) ∧
    (∀ j, j ≠ b → j ∉ inputs →
      (inputs.foldl (fun acc e => acc.addBatchDrain b e) t).getOps j =
        t.getOps j) := by
  induction inputs generalizing t with
  | nil => simp
  | cons e rest ih =>
      have heb : e ≠ b := hne e (List.mem_cons_self e rest)
      have hel : e < t.cells.length := hval e (List.mem_cons_self e rest)
      have hen : e ∉ rest := (List.nodup_cons.mp hnd).1
      have hne' : ∀ i ∈ rest, i ≠ b := fun i hi => hne i (List.mem_cons_of_mem e hi)
      have hval' : ∀ i ∈ rest, i < t.cells.length :=
        fun i hi => hval i (List.mem_cons_of_mem e hi)
      have hlen : (t.addBatchDrain b e).cells.length = t.cells.length := by
        simp [BatchStore.addBatchDrain, length_setCell]
      have hib : b < (t.addBatchDrain b e).cells.length := by rw [hlen]; exact hb
      have hgb : (t.addBatchDrain b e).getOps b = t.getOps b ++ t.getOps e := by
        rw [BatchStore.addBatchDrain, getOps_setCell_other _ _ _ _ heb,
          getOps_setCell_same _ _ _ hb]
      have hge : (t.addBatchDrain b e).getOps e = [] := by
        rw [BatchStore.addBatchDrain, getOps_setCell_same]
        rw [length_setCell]
        exact hel
      have hgo : ∀ j, j ≠ b → j ≠ e → (t.addBatchDrain b e).getOps j = t.getOps j :=
        fun j hjb hje => by
          rw [BatchStore.addBatchDrain, getOps_setCell_other _ _ _ _ (Ne.symm hje),
            getOps_setCell_other _ _ _ _ (Ne.symm hjb)]
      obtain ⟨ih1, ih2, ih3, ih4⟩ := ih (t.addBatchDrain b e) hib
        (by intro i hi; rw [hlen]; exact hval' i hi) hne'
        (List.nodup_cons.mp hnd).2
      refine ⟨by simpa [hlen] using ih1, ?_, ?_, ?_⟩
      · rw [List.foldl_cons, ih2, hgb]
        have hmap : rest.map (t.addBatchDrain b e).getOps = rest.map t.getOps :=
          List.map_congr_left (fun i hi =>
            hgo i (hne' i hi) (fun hie => hen (hie ▸ hi)))
        rw [hmap, List.map_cons, List.flatten, List.append_assoc]
      · intro i hi
        rcases List.mem_cons.mp hi with h | h
        · subst h
          rw [List.foldl_cons, ih4 i heb hen, hge]
        · rw [List.foldl_cons]
          exact ih3 i h
      · intro j hjb hjm
        have hje : j ≠ e := fun h => hjm (h ▸ List.mem_cons_self e rest)
        have hjr : j ∉ rest := fun h => hjm (List.mem_cons_of_mem e h)
        rw [List.foldl_cons, ih4 j hjb hjr, hgo j hjb hje]

/-- C9. Consolidation returns a batch whose operation sequence is the
concatenation of the input batches' sequences, in list order, each
sub-sequence in its original internal order.  The batch.rs version
(`append`) satisfies this for every list of batch handles of the store; the
draw.rs version (`add_batch`) does so whenever the handles are pairwise
distinct (it drains its inputs, so a repeated handle would contribute only
once). -/
theorem batch_consolidation_order {Op : Type} (s : BatchStore Op)
    (inputs : List ℕ) (hval : ∀ i ∈ inputs, i < s.cells.length) :
    (consolidateRs s inputs).1.getOps (consolidateRs s inputs).2 =
      (inputs.map s.getOps).flatten ∧
    (inputs.Nodup →
      (consolidateDraw s inputs).1.getOps (consolidateDraw s inputs).2 =
        (inputs.map s.getOps).flatten) := by
  have hb : s.cells.length < (s.cells ++ [[]]).length := by simp
  have hne : ∀ i ∈ inputs, i ≠ s.cells.length :=
    fun i hi => Nat.ne_of_lt (hval i hi)
  have hbase : (⟨s.cells ++ [[]]⟩ : BatchStore Op).getOps s.cells.length = [] := by
    simp [BatchStore.getOps, List.getD]
  have hkeep : ∀ i ∈ inputs,
      (⟨s.cells ++ [[]]⟩ : BatchStore Op).getOps i = s.getOps i := by
    intro i hi
    simp [BatchStore.getOps, List.getD, List.getElem?_append_left (hval i hi)]
  have hmap : inputs.map (⟨s.cells ++ [[]]⟩ : BatchStore Op).getOps =
      inputs.map s.getOps := List.map_congr_left hkeep
  constructor
  · have h := consolidateRs_fold_spec inputs ⟨s.cells ++ [[]]⟩
      s.cells.length hb hne
    show (inputs.foldl (fun acc e => acc.appendClone s.cells.length e)
      (⟨s.cells ++ [[]]⟩ : BatchStore Op)).getOps s.cells.length = _
    rw [h.2.1, hbase, hmap, List.nil_append]
  · intro hnd
    have h := consolidateDraw_fold_spec inputs ⟨s.cells ++ [[]]⟩
      s.cells.length hb (fun i hi => by simpa using Nat.lt_succ_of_lt (hval i hi))
      hne hnd
    show (inputs.foldl (fun acc e => acc.addBatchDrain s.cells.length e)
      (⟨s.cells ++ [[]]⟩ : BatchStore Op)).getOps s.cells.length = _
    rw [h.2.1, hbase, hmap, List.nil_append]

theorem batch_consolidation_order_witness :
    (consolidateRs (⟨[[1], [2], [3]]⟩ : BatchStore ℕ) [0, 1, 2]).1.getOps
        (consolidateRs (⟨[[1], [2], [3]]⟩ : BatchStore ℕ) [0, 1, 2]).2 =
      [1, 2, 3] ∧
    (consolidateDraw (⟨[[1], [2], [3]]⟩ : BatchStore ℕ) [0, 1, 2]).1.getOps
        (consolidateDraw (⟨[[1], [2], [3]]⟩ : BatchStore ℕ) [0, 1, 2]).2 =
      [1, 2, 3] := by
  have h := batch_consolidation_order (⟨[[1], [2], [3]]⟩ : BatchStore ℕ)
    [0, 1, 2] (by decide)
  exact ⟨h.1.trans (by decide), (h.2 (by decide)).trans (by decide)⟩

/-- C10 counterexample.  Consolidating, through the draw.rs implementation
(`Batch::add_batch`, which uses `Vec::append`), the one-batch list holding
the single-op batch `0` of the store `[[5]]` leaves batch `0` empty: its
operation sequence is removed, not merely read. -/
theorem batch_consolidation_input_drained :
    (consolidateDraw (⟨[[5]]⟩ : BatchStore ℕ) [0]).1.getOps 0 ≠
      (⟨[[5]]⟩ : BatchStore ℕ).getOps 0 := by decide

/-- C10 (amended).  Under the batch.rs implementation (`Batch::append`
extends with a copy), consolidation leaves every pre-existing batch's
operation sequence unchanged; under the draw.rs implementation
(`Batch::add_batch` moves via `Vec::append`), consolidation leaves each
input batch empty.  In both, cloning a batch shares the underlying sequence
(a clone is the same store cell), as `add_op` through any alias shows. -/
theorem batch_consolidation_inputs {Op : Type} (s : BatchStore Op)
    (inputs : List ℕ) (hval : ∀ i ∈ inputs, i < s.cells.length)
    (hnd : inputs.Nodup) :
    (∀ j, j < s.cells.length →
      (consolidateRs s inputs).1.getOps j = s.getOps j) ∧
    (∀ i ∈ inputs, (consolidateDraw s inputs).1.getOps i = []) ∧
    (∀ b op, b < s.cells.length →
      (s.addOp b op).getOps b = s.getOps b ++ [op]) := by
  have hb : s.cells.length < (s.cells ++ [[]]).length := by simp
  have hne : ∀ i ∈ inputs, i ≠ s.cells.length :=
    fun i hi => Nat.ne_of_lt (hval i hi)
  have hkeep : ∀ j, j < s.cells.length →
      (⟨s.cells ++ [[]]⟩ : BatchStore Op).getOps j = s.getOps j := by
    intro j hj
    simp [BatchStore.getOps, List.getD, List.getElem?_append_left hj]
  refine ⟨?_, ?_, ?_⟩
  · intro j hj
    have h := consolidateRs_fold_spec inputs ⟨s.cells ++ [[]]⟩
      s.cells.length hb hne
    show (inputs.foldl (fun acc e => acc.appendClone s.cells.length e)
      (⟨s.cells ++ [[]]⟩ : BatchStore Op)).getOps j = _
    rw [h.2.2 j (Nat.ne_of_lt hj), hkeep j hj]
  · intro i hi
    have h := consolidateDraw_fold_spec inputs ⟨s.cells ++ [[]]⟩
      s.cells.length hb (fun i hi => by simpa using Nat.lt_succ_of_lt (hval i hi))
      hne hnd
    exact h.2.2.1 i hi
  · intro b op hbl
    exact getOps_setCell_same _ _ _ hbl

theorem batch_consolidation_inputs_witness :
    (consolidateRs (⟨[[1], [2]]⟩ : BatchStore ℕ) [0, 1]).1.getOps 0 =
      (⟨[[1], [2]]⟩ : BatchStore ℕ).getOps 0 ∧
    (consolidateDraw (⟨[[1], [2]]⟩ : BatchStore ℕ) [0, 1]).1.getOps 0 = [] := by
  have h := batch_consolidation_inputs (⟨[[1], [2]]⟩ : BatchStore ℕ)
    [0, 1] (by decide) (by decide)
  exact ⟨h.1 0 (by decide), h.2.1 0 (by decide)⟩

theorem moveLoop_events (hov1 : List ℕ) (pos : IntPair)
    (children : List ChildInfo) :
    (moveLoop hov1 pos children).1 =
      (children.filter (fun c => childContains c pos)).map
        (fun c => if !(hov1.contains c.id) then HoverEvent.enter c.id
                  else HoverEvent.move c.id (pos.sub c.pos.to_int)) ∧
    (moveLoop hov1 pos children).2 =
      (children.filter (fun c => childContains c pos)).map ChildInfo.id := by
  induction children with
  | nil => exact ⟨rfl, rfl⟩
  | cons c rest ih =>
      by_cases h : childContains c pos <;>
        simp [moveLoop, h, ih.1, ih.2, List.filter_cons]

theorem countL_map_leave_ne (lst : List ℕ) (e : HoverEvent)
    (hne : ∀ x, HoverEvent.leave x ≠ e) :
    countL e (lst.map HoverEvent.leave) = 0 := by
  rw [countL_map_eq_length_filter]
  rw [List.filter_eq_nil_iff.mpr (fun x _ => by simp [hne x])]
  rfl

theorem filter_one_of_nodup_ids {l : List ChildInfo}
    (hnd : (l.map ChildInfo.id).Nodup) {c : ChildInfo} (hc : c ∈ l)
    (q : ChildInfo → Bool)
    (hq : ∀ x, q x = true → x.id = c.id) :
    l.filter q = if q c then [c] else [] := by
  induction l with
  | nil => cases hc
  | cons a rest ih =>
      simp only [List.map_cons, List.nodup_cons] at hnd
      rcases List.mem_cons.mp hc with h | h
      · subst h
        have hrest : rest.filter q = [] := by
          refine List.filter_eq_nil_iff.mpr (fun x hx hqx => ?_)
          have hmem : x.id ∈ rest.map ChildInfo.id :=
            List.mem_map_of_mem ChildInfo.id hx
          rw [hq x (by simpa using hqx)] at hmem
          exact hnd.1 hmem
        rw [List.filter_cons, hrest]
      · have haq : ¬(q a = true) := by
          intro hf
          have hmem : c.id ∈ rest.map ChildInfo.id :=
            List.mem_map_of_mem ChildInfo.id h
          rw [← hq a hf] at hmem
          exact hnd.1 hmem
        rw [List.filter_cons, if_neg haq]
        exact ih hnd.2 h

theorem length_filter_and_eq {l : List ℕ} (hnd : l.Nodup) {h : ℕ}
    (hm : h ∈ l) (p : ℕ → Bool) :
    (l.filter (fun x => decide (x = h) && p x)).length =
      if p h then 1 else 0 := by
  induction l with
  | nil => cases hm
  | cons a rest ih =>
      simp only [List.nodup_cons] at hnd
      rcases List.mem_cons.mp hm with hh | hh
      · subst hh
        have hrest : rest.filter (fun x => decide (x = h) && p x) = [] := by
          refine List.filter_eq_nil_iff.mpr (fun x hx hpx => ?_)
          simp only [Bool.and_eq_true, decide_eq_true_eq] at hpx
          exact absurd (hpx.1 ▸ hx) hnd.1
        by_cases hp : p h <;> simp [List.filter_cons, hrest, hp]
      · have hne : a ≠ h := fun e => hnd.1 (e ▸ hh)
        simp only [List.filter_cons, hne, decide_eq_true_eq, Bool.false_and,
          if_false, Bool.and_eq_true, false_and, decide_eq_false hne]
        exact ih hnd.2 hh

theorem countL_enter_hover (hov1 : List ℕ) (pos : IntPair)
    {L : List ChildInfo} (hnd : (L.map ChildInfo.id).Nodup)
    {c : ChildInfo} (hc : c ∈ L) :
    countL (HoverEvent.enter c.id)
      (L.map (fun x => if !(hov1.contains x.id) then HoverEvent.enter x.id
        else HoverEvent.move x.id (pos.sub x.pos.to_int))) =
      if hov1.contains c.id then 0 else 1 := by
  rw [countL_map_eq_length_filter]
  have hq : ∀ x : ChildInfo,
      (decide ((if !(hov1.contains x.id) then HoverEvent.enter x.id
      else HoverEvent.move x.id (pos.sub x.pos.to_int)) =
        HoverEvent.enter c.id)) = true → x.id = c.id := by
    intro x hx
    simp only [decide_eq_true_eq] at hx
    by_cases hbx : x.id ∈ hov1
    · simp [hbx] at hx
    · simp [hbx] at hx
      exact hx
  rw [filter_one_of_nodup_ids hnd hc _ hq]
  by_cases hbc : c.id ∈ hov1 <;> simp [hbc]

theorem countL_move_hover (hov1 : List ℕ) (pos : IntPair)
    {L : List ChildInfo} (hnd : (L.map ChildInfo.id).Nodup)
    {c : ChildInfo} (hc : c ∈ L) (pl : IntPair) :
    countL (HoverEvent.move c.id pl)
      (L.map (fun x => if !(hov1.contains x.id) then HoverEvent.enter x.id
        else HoverEvent.move x.id (pos.sub x.pos.to_int))) =
      if hov1.contains c.id = true ∧ pl = pos.sub c.pos.to_int then 1 else 0 := by
  rw [countL_map_eq_length_filter]
  have hq : ∀ x : ChildInfo,
      (decide ((if !(hov1.contains x.id) then HoverEvent.enter x.id
      else HoverEvent.move x.id (pos.sub x.pos.to_int)) =
        HoverEvent.move c.id pl)) = true → x.id = c.id := by
    intro x hx
    simp only [decide_eq_true_eq] at hx
    by_cases hbx : x.id ∈ hov1
    · simp [hbx] at hx
      exact hx.1
    · simp [hbx] at hx
  rw [filter_one_of_nodup_ids hnd hc _ hq]
  by_cases hbc : c.id ∈ hov1
  · by_cases hpl : pl = pos.sub c.pos.to_int
    · simp [hbc, hpl]
    · simp [hbc, hpl, Ne.symm hpl]
  · simp [hbc]

theorem countL_leave_hover (hov1 : List ℕ) (pos : IntPair)
    (L : List ChildInfo) (h : ℕ) :
    countL (HoverEvent.leave h)
      (L.map (fun x => if !(hov1.contains x.id) then HoverEvent.enter x.id
        else HoverEvent.move x.id (pos.sub x.pos.to_int))) = 0 := by
  rw [countL_map_eq_length_filter]
  rw [List.filter_eq_nil_iff.mpr (fun x _ => by
    simp only [decide_eq_true_eq]
    split <;> simp)]
  rfl

theorem countL_leave_map_leave {hov1 : List ℕ} (hnd : hov1.Nodup)
    (q : ℕ → Bool) {h : ℕ} (hm : h ∈ hov1) :
    countL (HoverEvent.leave h) ((hov1.filter q).map HoverEvent.leave) =
      if q h then 1 else 0 := by
  rw [countL_map_eq_length_filter]
  simp only [HoverEvent.leave.injEq]
  rw [List.filter_filter]
  exact length_filter_and_eq hnd hm q

theorem countL_leave_not_mem {lst : List ℕ} {h : ℕ} (hm : h ∉ lst) :
    countL (HoverEvent.leave h) (lst.map HoverEvent.leave) = 0 :=
  countL_eq_zero_of_not_mem (by simp [hm])

/-- C4.  One layout mouse-move dispatch: every child whose rectangle
contains the incoming point receives exactly one enter broadcast if it was
not already in the hover set, and otherwise exactly one move broadcast whose
payload is the incoming integer point minus the integer truncation of the
child's position (and no move with any other payload); every previously
hovered, still-live entry whose corresponding child no longer contains the
point receives exactly one leave broadcast; and afterwards the hover set is
exactly the list of children containing the point. -/
theorem layout_hover_transitions (alive : ℕ → Bool)
    (children : List ChildInfo) (hov : List ℕ) (pos : IntPair)
    (hcn : (children.map ChildInfo.id).Nodup)
    (hhn : hov.Nodup)
    (hca : ∀ c ∈ children, alive c.id = true) :
    (∀ c ∈ children, childContains c pos = true →
      (c.id ∉ hov →
        countL (HoverEvent.enter c.id)
          (layoutMouseMove alive children hov pos).events = 1 ∧
        (∀ pl, countL (HoverEvent.move c.id pl)
          (layoutMouseMove alive children hov pos).events = 0) ∧
        countL (HoverEvent.leave c.id)
          (layoutMouseMove alive children hov pos).events = 0) ∧
      (c.id ∈ hov →
        countL (HoverEvent.move c.id (pos.sub c.pos.to_int))
          (layoutMouseMove alive children hov pos).events = 1 ∧
        (∀ pl, pl ≠ pos.sub c.pos.to_int →
          countL (HoverEvent.move c.id pl)
            (layoutMouseMove alive children hov pos).events = 0) ∧
        countL (HoverEvent.enter c.id)
          (layoutMouseMove alive children hov pos).events = 0 ∧
        countL (HoverEvent.leave c.id)
          (layoutMouseMove alive children hov pos).events = 0)) ∧
    (∀ h ∈ hov, alive h = true →
      (∀ c ∈ children, c.id = h → childContains c pos = false) →
      countL (HoverEvent.leave h)
        (layoutMouseMove alive children hov pos).events = 1) ∧
    (layoutMouseMove alive children hov pos).newHov =
      (children.filter (fun c => childContains c pos)).map ChildInfo.id := by
  have hml := moveLoop_events (hov.filter alive) pos children
  have hevents : (layoutMouseMove alive children hov pos).events =
      (children.filter (fun c => childContains c pos)).map
        (fun x => if !((hov.filter alive).contains x.id)
          then HoverEvent.enter x.id
          else HoverEvent.move x.id (pos.sub x.pos.to_int)) ++
      ((hov.filter alive).filter (fun h =>
        !(((children.filter (fun c => childContains c pos)).map
            ChildInfo.id).contains h))).map HoverEvent.leave := by
    show (moveLoop (hov.filter alive) pos children).1 ++
      ((hov.filter alive).filter (fun h =>
        !((moveLoop (hov.filter alive) pos children).2.contains h))).map
        HoverEvent.leave = _
    rw [hml.1, hml.2]
  have hnewHov : (layoutMouseMove alive children hov pos).newHov =
      (children.filter (fun c => childContains c pos)).map ChildInfo.id := by
    show (moveLoop (hov.filter alive) pos children).2 = _
    exact hml.2
  have hLn : ((children.filter (fun c => childContains c pos)).map
      ChildInfo.id).Nodup :=
    hcn.sublist ((List.filter_sublist children).map ChildInfo.id)
  have hh1n : (hov.filter alive).Nodup := hhn.filter alive
  refine ⟨?_, ?_, hnewHov⟩
  · intro c hc hP
    have hcL : c ∈ children.filter (fun c => childContains c pos) :=
      List.mem_filter.mpr ⟨hc, hP⟩
    have hcNH : c.id ∈ (children.filter (fun c => childContains c pos)).map
        ChildInfo.id := List.mem_map_of_mem ChildInfo.id hcL
    have hleave0 : countL (HoverEvent.leave c.id)
        (layoutMouseMove alive children hov pos).events = 0 := by
      rw [hevents, countL_append, countL_leave_hover]
      by_cases hmem : c.id ∈ hov.filter alive
      · rw [countL_leave_map_leave hh1n _ hmem]
        simp [hcNH]
      · rw [countL_leave_not_mem
          (fun hx => hmem (List.mem_of_mem_filter hx))]
    constructor
    · intro hno
      have hno1 : c.id ∉ hov.filter alive :=
        fun hm => hno (List.mem_of_mem_filter hm)
      refine ⟨?_, fun pl => ?_, hleave0⟩
      · rw [hevents, countL_append,
          countL_enter_hover (hov.filter alive) pos hLn hcL,
          countL_map_leave_ne _ _ (fun x => by simp)]
        simp [hno1]
      · rw [hevents, countL_append,
          countL_move_hover (hov.filter alive) pos hLn hcL pl,
          countL_map_leave_ne _ _ (fun x => by simp)]
        simp [hno1]
    · intro hyes
      have hyes1 : c.id ∈ hov.filter alive :=
        List.mem_filter.mpr ⟨hyes, hca c hc⟩
      refine ⟨?_, fun pl hpl => ?_, ?_, hleave0⟩
      · rw [hevents, countL_append,
          countL_move_hover (hov.filter alive) pos hLn hcL _,
          countL_map_leave_ne _ _ (fun x => by simp)]
        simp [hyes1]
      · rw [hevents, countL_append,
          countL_move_hover (hov.filter alive) pos hLn hcL pl,
          countL_map_leave_ne _ _ (fun x => by simp)]
        simp [hpl]
      · rw [hevents, countL_append,
          countL_enter_hover (hov.filter alive) pos hLn hcL,
          countL_map_leave_ne _ _ (fun x => by simp)]
        simp [hyes1]
  · intro h hm halv hnc
    have hm1 : h ∈ hov.filter alive := List.mem_filter.mpr ⟨hm, halv⟩
    have hnot : h ∉ (children.filter (fun c => childContains c pos)).map
        ChildInfo.id := by
      intro hx
      rcases List.mem_map.mp hx with ⟨c, hcf, hcid⟩
      have hcm := List.mem_filter.mp hcf
      exact absurd hcm.2 (by simp [hnc c hcm.1 hcid])
    rw [hevents, countL_append, countL_leave_hover,
      countL_leave_map_leave hh1n _ hm1]
    simp [hnot]

theorem layout_hover_transitions_witness :
    countL (HoverEvent.enter 0)
      (layoutMouseMove (fun _ => true)
        [⟨0, ⟨0, 0⟩, ⟨50, 50⟩⟩] [] ⟨10, 10⟩).events = 1 :=
  (((layout_hover_transitions (fun _ => true) [⟨0, ⟨0, 0⟩, ⟨50, 50⟩⟩] []
      ⟨10, 10⟩ (by decide) (by decide) (by decide)).1
      ⟨0, ⟨0, 0⟩, ⟨50, 50⟩⟩ (by decide)
      (by norm_num [childContains, Region.contains, Region.origin_size,
        IntPair.to_scalar])).1 (by decide)).1

end Caribou
